import Mathlib

/-!
# Verification of the liteman history store (`src/app.py`)

Shallow embedding of the request-history store of `app.py`:
entries are JSON-like records, the persisted store is modelled as an
optional, possibly-unparsable list of entries, and every store
operation is a pure function from the store state to its result and
the new store state.

Modelling conventions:
* A Python dict entry is modelled by the structure `Entry` whose
  fields are the eight fields of the spec's data model, each an
  `Option` (`none` = key absent).  A key that is present but maps to
  Python `None` is identified with an absent key: the code only reads
  fields through `.get`/`or` chains, which treat the two alike in the
  fingerprint and in the id/name merge rules.
* The persisted file is `Store := Option (Option (List Entry))`:
  `none` = file absent, `some none` = file present but not valid JSON
  (`json.JSONDecodeError`), `some (some es)` = file parses to a list
  of entries.  `save_history` round-trips: the JSON written for a
  history parses back to the same list.
* Python string truthiness (`if x:` with `x : str | None`) is
  `pyTruthyStr`; `str(x)` on an optional string is `pyStr`
  (`str(None) = "None"`).
* Response bodies of the external executor are modelled post-decoding
  as `String`; byte-level charset decoding is abstracted away.
-/

/-- One recorded request/response pair (a Python dict with these keys;
`none` models an absent key). -/
structure Entry where
  id : Option String := none
  timestamp : Option String := none
  method : Option String := none
  url : Option String := none
  headers : Option (List (String × String)) := none
  body : Option String := none
  response_status : Option Int := none
  name : Option String := none
  deriving DecidableEq, Repr

/-- Drop leading whitespace characters from a character list. -/
def dropLeadingWs : List Char → List Char
  | [] => []
  | c :: rest => if c.isWhitespace then dropLeadingWs rest else c :: rest

/-- Python `str.strip()`: remove leading and trailing whitespace. -/
def pyStrip (s : String) : String :=
  String.mk ((dropLeadingWs ((dropLeadingWs s.data).reverse)).reverse)

/-- Python `str.upper()`: upper-case every character. -/
def pyUpper (s : String) : String :=
  String.mk (s.data.map Char.toUpper)

/-- Python truthiness of an optional string: `None` and `""` are falsy. -/
def pyTruthyStr : Option String → Bool
  | none => false
  | some s => !(s == "")

/-- Python `a or b` on optional strings. -/
def pyOrStr (a b : Option String) : Option String :=
  if pyTruthyStr a then a else b

/-- Python `str(x)` on an optional string (`str(None) = "None"`). -/
def pyStr : Option String → String
  | none => "None"
  | some s => s

/-- Assigning `d[k] = v` on a Python dict represented as an ordered
association list: an existing key keeps its position and gets the new
value, a new key is appended. -/
def updateKey {α : Type} : List (String × α) → String → α → List (String × α)
  | [], k, v => [(k, v)]
  | (k', v') :: rest, k, v =>
    if k' = k then (k, v) :: rest else (k', v') :: updateKey rest k v

/-- The Python dict built by inserting the pairs of `l` left to right
(later occurrences of a key overwrite the earlier value in place). -/
def dictOfList {α : Type} (l : List (String × α)) : List (String × α) :=
  l.foldl (fun acc kv => updateKey acc kv.1 kv.2) []

/-- Python `d.get(k)` on a dict represented as an association list. -/
def dictGet {α : Type} (l : List (String × α)) (k : String) : Option α :=
  (l.find? (fun p => p.1 = k)).map (fun p => p.2)

/-- Lexicographic order on string pairs: how Python `sorted` compares
the `(key, value)` tuples of a dict's items. -/
def pairLe (a b : String × String) : Prop :=
  a.1 < b.1 ∨ (a.1 = b.1 ∧ a.2 ≤ b.2)

instance : DecidableRel pairLe := fun a b =>
  inferInstanceAs (Decidable (a.1 < b.1 ∨ (a.1 = b.1 ∧ a.2 ≤ b.2)))

instance : IsTotal (String × String) pairLe :=
  ⟨fun a b => by
    rcases lt_trichotomy a.1 b.1 with h | h | h
    · exact Or.inl (Or.inl h)
    · rcases le_total a.2 b.2 with h2 | h2
      · exact Or.inl (Or.inr ⟨h, h2⟩)
      · exact Or.inr (Or.inr ⟨h.symm, h2⟩)
    · exact Or.inr (Or.inl h)⟩

instance : IsTrans (String × String) pairLe :=
  ⟨fun a b c hab hbc => by
    rcases hab with h1 | ⟨h1, h1'⟩ <;> rcases hbc with h2 | ⟨h2, h2'⟩
    · exact Or.inl (lt_trans h1 h2)
    · exact Or.inl (h2 ▸ h1)
    · exact Or.inl (h1 ▸ h2)
    · exact Or.inr ⟨h1.trans h2, le_trans h1' h2'⟩⟩

instance : IsAntisymm (String × String) pairLe :=
  ⟨fun a b hab hba => by
    rcases hab with h1 | ⟨h1, h1'⟩ <;> rcases hba with h2 | ⟨h2, h2'⟩
    · exact absurd h2 (lt_asymm h1)
    · exact absurd h1 (h2 ▸ lt_irrefl _)
    · exact absurd h2 (h1 ▸ lt_irrefl _)
    · exact Prod.ext h1 (le_antisymm h1' h2')⟩

/-- `entry_fingerprint` (app.py:16-25): the canonical identity of a
request — upper-cased method, trimmed url, trimmed header pairs as a
dict sorted by key, and body-or-empty-string. -/
def entry_fingerprint (entry : Entry) :
    String × String × List (String × String) × String :=
  let headers := entry.headers.getD []
  let normalized_headers :=
    dictOfList (headers.map (fun kv => (pyStrip kv.1, pyStrip kv.2)))
  let headers_tuple := List.insertionSort pairLe normalized_headers
  (pyUpper (entry.method.getD ""),
   pyStrip (entry.url.getD ""),
   headers_tuple,
   entry.body.getD "")

/-- The fingerprint key type. -/
abbrev Fingerprint := String × String × List (String × String) × String

/-- The persisted `history.json`: `none` = absent, `some none` =
present but not valid JSON, `some (some es)` = parses to a list of
entries. -/
abbrev Store := Option (Option (List Entry))

/-- The dedup loop of `load_history` (app.py:36-44): `seen` is the set
of fingerprints already encountered. -/
def dedupLoop (seen : List Fingerprint) : List Entry → List Entry
  | [] => []
  | e :: rest =>
    if seen.contains (entry_fingerprint e) then dedupLoop seen rest
    else e :: dedupLoop (entry_fingerprint e :: seen) rest

/-- `load_history` (app.py:28-44): empty on an absent or unparsable
file, otherwise the parsed entries deduplicated by fingerprint,
keeping the first occurrence. -/
def load_history : Store → List Entry
  | none => []
  | some none => []
  | some (some entries) => dedupLoop [] entries

/-- `save_history` (app.py:47-50): fully overwrites the persisted
state with the given history (which then parses back to itself). -/
def save_history (history : List Entry) (_s : Store) : Store :=
  some (some history)

/-- The list of entries held by a store state (empty when absent or
unparsable); used to state what a mutation persisted. -/
def storedEntries : Store → List Entry
  | some (some h) => h
  | _ => []

/-- `remove_entry` (app.py:53-59): filter out entries whose
stringified id equals the argument; save only if something changed. -/
def remove_entry (entry_id : String) (s : Store) : Bool × Store :=
  let history := load_history s
  let new_history := history.filter (fun item => !(pyStr item.id == entry_id))
  if new_history.length = history.length then (false, s)
  else (true, save_history new_history s)

/-- The merge of `record_entry` (app.py:101-106): `{**previous,
**entry}`, then restore `id` from the previous entry when truthy, and
`name` from the previous entry when the merged name is falsy and the
previous one truthy. -/
def mergeEntries (previous entry : Entry) : Entry :=
  let merged : Entry :=
    { id := entry.id <|> previous.id
      timestamp := entry.timestamp <|> previous.timestamp
      method := entry.method <|> previous.method
      url := entry.url <|> previous.url
      headers := entry.headers <|> previous.headers
      body := entry.body <|> previous.body
      response_status := entry.response_status <|> previous.response_status
      name := entry.name <|> previous.name }
  let merged := { merged with id := pyOrStr previous.id entry.id }
  if !(pyTruthyStr merged.name) && pyTruthyStr previous.name then
    { merged with name := previous.name }
  else merged

/-- The insert-or-merge step of `record_entry` (app.py:99-109): the
first entry with the given fingerprint is replaced in place by the
merge; if none matches, the new entry is appended at the end. -/
def insertOrMerge (fp : Fingerprint) (entry : Entry) : List Entry → List Entry
  | [] => [entry]
  | item :: rest =>
    if entry_fingerprint item = fp then mergeEntries item entry :: rest
    else item :: insertOrMerge fp entry rest

/-- `record_entry` (app.py:94-113): load, insert-or-merge by
fingerprint, truncate to the first 100 entries, save, and return the
caller's entry unchanged. -/
def record_entry (entry : Entry) (s : Store) : Entry × Store :=
  let history := insertOrMerge (entry_fingerprint entry) entry (load_history s)
  let history := history.take 100
  (entry, save_history history s)

/-- Python truthiness of an entry as a dict: an empty dict is falsy. -/
def Entry.isTruthy (e : Entry) : Bool :=
  e.id.isSome || e.timestamp.isSome || e.method.isSome || e.url.isSome ||
    e.headers.isSome || e.body.isSome || e.response_status.isSome || e.name.isSome

/-- First loop of `reorder_entries` (app.py:80-84): walk the requested
order, appending each entry found in `by_id` (and truthy) whose id was
not already seen; returns the picked entries and the final seen set. -/
def pickLoop (byId : List (String × Entry)) :
    List String → List String → List Entry × List String
  | [], seen => ([], seen)
  | eid :: rest, seen =>
    match dictGet byId eid with
    | some entry =>
      if entry.isTruthy && !(seen.contains eid) then
        let p := pickLoop byId rest (eid :: seen)
        (entry :: p.1, p.2)
      else pickLoop byId rest seen
    | none => pickLoop byId rest seen

/-- Second loop of `reorder_entries` (app.py:85-89): append the
remaining entries whose stringified id is not in `seen`, adding each
appended id to `seen`. -/
def appendLoop : List Entry → List String → List Entry
  | [], _ => []
  | e :: rest, seen =>
    let eid := pyStr e.id
    if seen.contains eid then appendLoop rest seen
    else e :: appendLoop rest (eid :: seen)

/-- `reorder_entries` (app.py:75-91): order entries by the requested
id sequence via a dict keyed by stringified id, append the rest in
original order, always save. -/
def reorder_entries (order : List String) (s : Store) : List Entry × Store :=
  let history := load_history s
  let byId := dictOfList (history.map (fun item => (pyStr item.id, item)))
  let p := pickLoop byId order []
  let new_history := p.1 ++ appendLoop history p.2
  (new_history, save_history new_history s)

/-- Outcome of `urllib.request.urlopen` as seen by
`send_external_request`: a response with a status line, an
`HTTPError` (4xx/5xx, possibly without headers), or a `URLError`
(transport failure: DNS, refused connection, timeout, TLS, ...). -/
inductive FetchOutcome where
  | success (status : Int) (respHeaders : List (String × String)) (respBody : String)
  | httpError (code : Int) (respHeaders : Option (List (String × String))) (respBody : String)
  | urlError (reason : String)
  deriving DecidableEq, Repr

/-- `send_external_request` (app.py:116-148), with the network's
behaviour passed in as the `outcome` of the `urlopen` call: a success
or an `HTTPError` yield the real status, headers and decoded body;
a `URLError` yields the sentinel `(599, {}, message)`. -/
def send_external_request (_method _url : String)
    (_reqHeaders : List (String × String)) (_body : Option String)
    (outcome : FetchOutcome) : Int × List (String × String) × String :=
  match outcome with
  | .success status respHeaders respBody => (status, respHeaders, respBody)
  | .httpError code respHeaders respBody => (code, respHeaders.getD [], respBody)
  | .urlError reason => (599, [], "Request failed: " ++ reason)

/-- Spec-side description of load-time deduplication, following the
spec's words: "keeping the first occurrence per fingerprint,
preserving relative order of survivors".  To be compared with the
implementation's `dedupLoop`. -/
def firstOccurrences : List Entry → List Entry
  | [] => []
  | e :: rest =>
    e :: (firstOccurrences rest).filter
      (fun x => !(entry_fingerprint x == entry_fingerprint e))

/-- First occurrence of each string, in order (spec-side helper for
"matched once each, in the order given"). -/
def dedupFirst : List String → List String
  | [] => []
  | a :: l => a :: (dedupFirst l).filter (fun x => !(x == a))

/-- Spec-side description of `reorder`, following the spec's words:
the entries whose ids appear in the id sequence, matched once each in
the sequence's order (unknown ids silently ignored), followed by the
entries not mentioned in the sequence in their original relative
order.  To be compared with the implementation's `reorder_entries`. -/
def specReorder (order : List String) (h : List Entry) : List Entry :=
  (dedupFirst order).filterMap (fun i => h.find? (fun e => pyStr e.id = i))
    ++ h.filter (fun e => !(order.contains (pyStr e.id)))

/-- Proof-side functional image of the two `reorder_entries` loops,
abstracted over the lookup function: walk the order, pick `f a` when
`a` was not seen yet, and thread the seen set. -/
def pickAux {β : Type} (f : String → Option β) :
    List String → List String → List β × List String
  | [], seen => ([], seen)
  | a :: rest, seen =>
    match f a with
    | some b =>
      if seen.contains a then pickAux f rest seen
      else
        let p := pickAux f rest (a :: seen)
        (b :: p.1, p.2)
    | none => pickAux f rest seen

/-! Concrete inputs used by witnesses and counterexamples. -/

/-- A history of 100 entries with pairwise distinct fingerprints. -/
def hundredEntries : List Entry :=
  (List.range 100).map (fun k => { url := some (toString k) })

/-- A fresh entry whose fingerprint occurs nowhere in `hundredEntries`. -/
def freshEntry : Entry := { url := some "fresh" }

/-- Stored entry of the spec's merge example: `{id:"X", name:"keep"}`. -/
def mergePrevExample : Entry :=
  { id := some "X", name := some "keep", method := some "get", url := some "u" }

/-- New entry of the spec's merge example: `{id:"Y", name:""}` with the
same fingerprint. -/
def mergeNewExample : Entry :=
  { id := some "Y", name := some "", method := some "GET", url := some " u " }

/-- Entries `a`, `b`, `c` of the spec's reorder example. -/
def entryA : Entry := { id := some "a", url := some "ua" }

def entryB : Entry := { id := some "b", url := some "ub" }

def entryC : Entry := { id := some "c", url := some "uc" }

/-- Entry with headers `{a:1, b:2}` (spec fingerprint example). -/
def headerEntryL : Entry := { headers := some [("a", "1"), ("b", "2")] }

/-- Entry with headers `{b:2, a:1}` (spec fingerprint example). -/
def headerEntryR : Entry := { headers := some [("b", "2"), ("a", "1")] }

/-- Store holding entries `a`, `b`, `c` (spec reorder example). -/
def reorderStore : Store := some (some [entryA, entryB, entryC])

/-- A stored entry whose `id` is the empty string. -/
def emptyIdPrev : Entry := { id := some "", url := some "u10" }

/-- A fingerprint-equal new entry supplying no `id`. -/
def noIdNew : Entry := { url := some "u10", name := some "nn" }

/-- A stored entry with every field populated. -/
def fullPrev : Entry :=
  { id := some "pid", timestamp := some "t0", method := some "get",
    url := some "u11", headers := some [("k", "v")], body := some "bb",
    response_status := some (200 : Int), name := some "nm" }

/-- A fingerprint-equal new entry supplying only the fingerprint
fields. -/
def sparseNew : Entry :=
  { method := some "GET", url := some "u11", headers := some [(" k", " v ")],
    body := some "bb" }

section Helpers

/-! Component lemmas for `mergeEntries`. -/

lemma mergeEntries_timestamp (p n : Entry) :
    (mergeEntries p n).timestamp = (n.timestamp <|> p.timestamp) := by
  unfold mergeEntries; dsimp only; split <;> rfl

lemma mergeEntries_method (p n : Entry) :
    (mergeEntries p n).method = (n.method <|> p.method) := by
  unfold mergeEntries; dsimp only; split <;> rfl

lemma mergeEntries_url (p n : Entry) :
    (mergeEntries p n).url = (n.url <|> p.url) := by
  unfold mergeEntries; dsimp only; split <;> rfl

lemma mergeEntries_headers (p n : Entry) :
    (mergeEntries p n).headers = (n.headers <|> p.headers) := by
  unfold mergeEntries; dsimp only; split <;> rfl

lemma mergeEntries_body (p n : Entry) :
    (mergeEntries p n).body = (n.body <|> p.body) := by
  unfold mergeEntries; dsimp only; split <;> rfl

lemma mergeEntries_response_status (p n : Entry) :
    (mergeEntries p n).response_status = (n.response_status <|> p.response_status) := by
  unfold mergeEntries; dsimp only; split <;> rfl

lemma mergeEntries_id (p n : Entry) :
    (mergeEntries p n).id = pyOrStr p.id n.id := by
  unfold mergeEntries; dsimp only; split <;> rfl

lemma mergeEntries_name (p n : Entry) :
    (mergeEntries p n).name =
      if !(pyTruthyStr (n.name <|> p.name)) && pyTruthyStr p.name then p.name
      else (n.name <|> p.name) := by
  unfold mergeEntries
  dsimp only
  split <;> rename_i h <;> simp [h]

/-- When the new entry's fingerprint matches the previous one, the
merged entry keeps that same fingerprint. -/
lemma entry_fingerprint_mergeEntries (p n : Entry)
    (h : entry_fingerprint n = entry_fingerprint p) :
    entry_fingerprint (mergeEntries p n) = entry_fingerprint p := by
  unfold entry_fingerprint at h ⊢
  simp only [Prod.mk.injEq] at h ⊢
  obtain ⟨h1, h2, h3, h4⟩ := h
  refine ⟨?_, ?_, ?_, ?_⟩
  · rw [mergeEntries_method]
    cases hc : n.method with
    | none => simp
    | some m => simpa [hc] using h1
  · rw [mergeEntries_url]
    cases hc : n.url with
    | none => simp
    | some m => simpa [hc] using h2
  · rw [mergeEntries_headers]
    cases hc : n.headers with
    | none => simp
    | some m => simpa [hc] using h3
  · rw [mergeEntries_body]
    cases hc : n.body with
    | none => simp
    | some m => simpa [hc] using h4

/-! Lemmas for `insertOrMerge`. -/

/-- No entry matches the fingerprint: the new entry is appended. -/
lemma insertOrMerge_append (fp : Fingerprint) (e : Entry) (h : List Entry)
    (hno : ∀ q ∈ h, entry_fingerprint q ≠ fp) :
    insertOrMerge fp e h = h ++ [e] := by
  induction h with
  | nil => rfl
  | cons item rest ih =>
    rw [insertOrMerge, if_neg (hno item (List.mem_cons_self _ _))]
    rw [ih (fun q hq => hno q (List.mem_cons_of_mem _ hq))]
    rfl

/-- The first matching entry is replaced in place by the merge. -/
lemma insertOrMerge_replace (fp : Fingerprint) (e P : Entry)
    (pre post : List Entry)
    (hpre : ∀ q ∈ pre, entry_fingerprint q ≠ fp)
    (hP : entry_fingerprint P = fp) :
    insertOrMerge fp e (pre ++ P :: post) = pre ++ mergeEntries P e :: post := by
  induction pre with
  | nil => simp [insertOrMerge, hP]
  | cons item rest ih =>
    rw [List.cons_append, insertOrMerge,
      if_neg (hpre item (List.mem_cons_self _ _))]
    rw [ih (fun q hq => hpre q (List.mem_cons_of_mem _ hq))]
    rfl

/-- Every fingerprint in the output of `insertOrMerge` is the new
entry's fingerprint or one already present. -/
lemma insertOrMerge_fp_mem (e : Entry) (h : List Entry) (x : Fingerprint)
    (hx : x ∈ (insertOrMerge (entry_fingerprint e) e h).map entry_fingerprint) :
    x = entry_fingerprint e ∨ x ∈ h.map entry_fingerprint := by
  induction h with
  | nil => simpa [insertOrMerge] using hx
  | cons item rest ih =>
    rw [insertOrMerge] at hx
    by_cases hc : entry_fingerprint item = entry_fingerprint e
    · rw [if_pos hc] at hx
      rcases List.mem_map.mp hx with ⟨q, hq, rfl⟩
      rcases List.mem_cons.mp hq with rfl | hq'
      · right
        rw [entry_fingerprint_mergeEntries _ _ hc.symm]
        exact List.mem_map_of_mem _ (List.mem_cons_self _ _)
      · right
        exact List.mem_map_of_mem _ (List.mem_cons_of_mem _ hq')
    · rw [if_neg hc] at hx
      rcases List.mem_map.mp hx with ⟨q, hq, rfl⟩
      rcases List.mem_cons.mp hq with rfl | hq'
      · right; exact List.mem_map_of_mem _ (List.mem_cons_self _ _)
      · rcases ih (List.mem_map_of_mem _ hq') with h1 | h1
        · exact Or.inl h1
        · exact Or.inr (List.mem_map.mpr
            (by rcases List.mem_map.mp h1 with ⟨r, hr, hrx⟩
                exact ⟨r, List.mem_cons_of_mem _ hr, hrx⟩))

/-- `insertOrMerge` preserves fingerprint-distinctness. -/
lemma insertOrMerge_fp_nodup (e : Entry) (h : List Entry)
    (hnd : (h.map entry_fingerprint).Nodup) :
    ((insertOrMerge (entry_fingerprint e) e h).map entry_fingerprint).Nodup := by
  induction h with
  | nil => simp [insertOrMerge]
  | cons item rest ih =>
    rw [List.map_cons, List.nodup_cons] at hnd
    rw [insertOrMerge]
    by_cases hc : entry_fingerprint item = entry_fingerprint e
    · rw [if_pos hc, List.map_cons,
        entry_fingerprint_mergeEntries _ _ hc.symm, List.nodup_cons]
      exact hnd
    · rw [if_neg hc, List.map_cons, List.nodup_cons]
      refine ⟨fun hmem => ?_, ih hnd.2⟩
      rcases insertOrMerge_fp_mem e rest _ hmem with h1 | h1
      · exact hc h1
      · exact hnd.1 h1

/-! Lemmas for `dedupLoop`, `firstOccurrences` and `load_history`. -/

lemma contains_iff_mem {α : Type} [BEq α] [LawfulBEq α] (l : List α) (a : α) :
    l.contains a = true ↔ a ∈ l := by
  simp

lemma contains_eq_false {α : Type} [BEq α] [LawfulBEq α] {l : List α} {a : α}
    (h : a ∉ l) : l.contains a = false :=
  Bool.eq_false_iff.mpr (fun hc => h ((contains_iff_mem _ _).mp hc))

/-- The dedup loop is a sublist of its input (order of survivors is
preserved). -/
lemma dedupLoop_sublist : ∀ (es : List Entry) (seen : List Fingerprint),
    List.Sublist (dedupLoop seen es) es
  | [], _ => by simp [dedupLoop]
  | e :: rest, seen => by
    rw [dedupLoop]
    split
    · exact (dedupLoop_sublist rest seen).cons e
    · exact (dedupLoop_sublist rest _).cons₂ e

/-- The dedup loop output has pairwise distinct fingerprints, none of
them in `seen`. -/
lemma dedupLoop_fp_nodup : ∀ (es : List Entry) (seen : List Fingerprint),
    ((dedupLoop seen es).map entry_fingerprint).Nodup ∧
      ∀ x ∈ (dedupLoop seen es).map entry_fingerprint, x ∉ seen
  | [], _ => by simp [dedupLoop]
  | e :: rest, seen => by
    rw [dedupLoop]
    split
    · exact dedupLoop_fp_nodup rest seen
    · rename_i hc
      obtain ⟨ih1, ih2⟩ := dedupLoop_fp_nodup rest (entry_fingerprint e :: seen)
      rw [List.map_cons, List.nodup_cons]
      refine ⟨⟨fun hmem => ?_, ih1⟩, ?_⟩
      · exact ih2 _ hmem (List.mem_cons_self _ _)
      · intro x hx
        rcases List.mem_cons.mp hx with rfl | hx'
        · intro hxs
          exact hc ((contains_iff_mem _ _).mpr hxs)
        · intro hxs
          exact ih2 _ hx' (List.mem_cons_of_mem _ hxs)

/-- The implementation's dedup loop computes the spec's
first-occurrence-per-fingerprint filter. -/
lemma dedupLoop_eq_firstOccurrences_filter :
    ∀ (es : List Entry) (seen : List Fingerprint),
    dedupLoop seen es =
      (firstOccurrences es).filter
        (fun x => !(seen.contains (entry_fingerprint x)))
  | [], _ => by simp [dedupLoop, firstOccurrences]
  | e :: rest, seen => by
    rw [dedupLoop, firstOccurrences, List.filter_cons]
    by_cases hm : entry_fingerprint e ∈ seen
    · have hce : seen.contains (entry_fingerprint e) = true :=
        (contains_iff_mem _ _).mpr hm
      rw [if_pos hce, dedupLoop_eq_firstOccurrences_filter rest seen]
      simp only [hce, Bool.not_true]
      rw [if_neg Bool.false_ne_true, List.filter_filter]
      refine List.filter_congr (fun x _ => ?_)
      rcases hx : seen.contains (entry_fingerprint x) with _ | _
      · have hne : entry_fingerprint x ≠ entry_fingerprint e := by
          intro hcontra
          rw [hcontra, hce] at hx
          simp at hx
        simp [hx, beq_eq_decide, hne]
      · simp [hx]
    · have hce : seen.contains (entry_fingerprint e) = false :=
        contains_eq_false hm
      rw [if_neg (fun h => hm ((contains_iff_mem _ _).mp h)),
        dedupLoop_eq_firstOccurrences_filter rest (entry_fingerprint e :: seen)]
      simp only [hce, Bool.not_false]
      rw [if_pos trivial, List.filter_filter]
      refine congrArg (e :: ·) (List.filter_congr (fun x _ => ?_))
      by_cases hd : entry_fingerprint x = entry_fingerprint e <;>
        by_cases hs : entry_fingerprint x ∈ seen <;>
          simp [List.contains_cons, hd, hs, beq_eq_decide]

/-- On an empty `seen` set the dedup loop is exactly the spec's
first-occurrence filter. -/
lemma dedupLoop_eq_firstOccurrences (es : List Entry) :
    dedupLoop [] es = firstOccurrences es := by
  rw [dedupLoop_eq_firstOccurrences_filter]
  simp

/-- The spec-side filter keeps a sublist of the input. -/
lemma firstOccurrences_sublist (es : List Entry) :
    List.Sublist (firstOccurrences es) es := by
  rw [← dedupLoop_eq_firstOccurrences]
  exact dedupLoop_sublist es []

/-- A fingerprint-distinct list survives dedup unchanged. -/
lemma dedupLoop_eq_self (es : List Entry)
    (h : (es.map entry_fingerprint).Nodup) : dedupLoop [] es = es := by
  rw [dedupLoop_eq_firstOccurrences]
  induction es with
  | nil => rfl
  | cons e rest ih =>
    rw [List.map_cons, List.nodup_cons] at h
    rw [firstOccurrences, ih h.2, List.filter_eq_self.mpr]
    intro x hx
    have hne : entry_fingerprint x ≠ entry_fingerprint e := by
      intro hcontra
      exact h.1 (hcontra ▸ List.mem_map_of_mem _ hx)
    simp [beq_eq_decide, hne]

/-- Whatever the store state, the loaded history has pairwise
distinct fingerprints. -/
lemma load_history_fp_nodup (s : Store) :
    ((load_history s).map entry_fingerprint).Nodup := by
  match s with
  | none => simp [load_history]
  | some none => simp [load_history]
  | some (some es) => exact (dedupLoop_fp_nodup es []).1

/-- Loading a store that already satisfies the fingerprint invariant
returns it unchanged. -/
lemma load_history_eq_self (es : List Entry)
    (h : (es.map entry_fingerprint).Nodup) :
    load_history (some (some es)) = es :=
  dedupLoop_eq_self es h

/-! Lemmas for Python dicts as association lists. -/

lemma updateKey_append {α : Type} (acc : List (String × α)) (k : String) (v : α)
    (h : k ∉ acc.map Prod.fst) : updateKey acc k v = acc ++ [(k, v)] := by
  induction acc with
  | nil => rfl
  | cons kv rest ih =>
    obtain ⟨k', v'⟩ := kv
    rw [List.map_cons, List.mem_cons] at h
    push_neg at h
    rw [updateKey, if_neg (fun hh => h.1 hh.symm), ih h.2]
    rfl

lemma foldl_updateKey_eq_append {α : Type} :
    ∀ (l acc : List (String × α)),
      (((acc ++ l).map Prod.fst).Nodup) →
      l.foldl (fun a kv => updateKey a kv.1 kv.2) acc = acc ++ l
  | [], acc => by simp
  | (k, v) :: rest, acc => by
    intro h
    have hassoc : acc ++ (k, v) :: rest = (acc ++ [(k, v)]) ++ rest := by simp
    have hk : k ∉ acc.map Prod.fst := by
      rw [List.map_append, List.nodup_append] at h
      intro hmem
      exact h.2.2 hmem (by simp)
    rw [List.foldl_cons, updateKey_append acc k v hk,
      foldl_updateKey_eq_append rest (acc ++ [(k, v)]) (by rw [← hassoc]; exact h)]
    simp

/-- Building a Python dict from pairs with distinct keys keeps the
pairs unchanged. -/
lemma dictOfList_eq_self {α : Type} (l : List (String × α))
    (h : (l.map Prod.fst).Nodup) : dictOfList l = l := by
  have := foldl_updateKey_eq_append l [] (by simpa using h)
  simpa [dictOfList] using this

/-- Looking up a dict built from entry pairs is `find?` on the
entries. -/
lemma dictGet_map_entries (h : List Entry) (k : String) :
    dictGet (h.map (fun e => (pyStr e.id, e))) k =
      h.find? (fun e => pyStr e.id = k) := by
  rw [dictGet, List.find?_map]
  rw [Option.map_map]
  have : ∀ (o : Option Entry), Option.map (fun p : String × Entry => p.2)
      (Option.map (fun e => (pyStr e.id, e)) o) = o := by
    intro o
    cases o <;> rfl
  induction h with
  | nil => rfl
  | cons e rest ih =>
    rw [List.find?_cons, List.find?_cons]
    by_cases hc : pyStr e.id = k
    · simp [Function.comp, hc]
    · simp only [Function.comp] at ih ⊢
      simp [hc, ih]

/-! Sorting lemmas. -/

/-- `insertionSort` by the pair order sends permuted inputs to the
same sorted output. -/
lemma insertionSort_eq_of_perm {l1 l2 : List (String × String)}
    (h : l1.Perm l2) :
    List.insertionSort pairLe l1 = List.insertionSort pairLe l2 :=
  List.eq_of_perm_of_sorted
    ((List.perm_insertionSort pairLe l1).trans
      (h.trans (List.perm_insertionSort pairLe l2).symm))
    (List.sorted_insertionSort pairLe l1)
    (List.sorted_insertionSort pairLe l2)

/-! Lemmas for `record_entry`. -/

lemma record_entry_eq (e : Entry) (s : Store) :
    record_entry e s =
      (e, some (some
        ((insertOrMerge (entry_fingerprint e) e (load_history s)).take 100))) :=
  rfl

/-- When the loaded history splits as `pre ++ P :: post` with `P` the
fingerprint match and the history within the cap, `record_entry`
replaces `P` in place by the merge and saves. -/
lemma record_entry_merge (s : Store) (N P : Entry) (pre post : List Entry)
    (hload : load_history s = pre ++ P :: post)
    (hfp : entry_fingerprint N = entry_fingerprint P)
    (hlen : (pre ++ P :: post).length ≤ 100) :
    record_entry N s = (N, some (some (pre ++ mergeEntries P N :: post))) := by
  have hnd := load_history_fp_nodup s
  rw [hload] at hnd
  rw [List.map_append, List.map_cons, List.nodup_append] at hnd
  have hpre : ∀ q ∈ pre, entry_fingerprint q ≠ entry_fingerprint N := by
    intro q hq hcontra
    exact hnd.2.2 (List.mem_map_of_mem _ hq)
      (by rw [hcontra, hfp]; exact List.mem_cons_self _ _)
  rw [record_entry_eq, hload,
    insertOrMerge_replace (entry_fingerprint N) N P pre post hpre hfp.symm,
    List.take_of_length_le (by simpa using hlen)]

/-! Lemmas for the `reorder_entries` loops. -/

/-- With all entries truthy, the implementation loop over the id dict
computes `pickAux` of the `find?` lookup. -/
lemma pickLoop_eq_pickAux (h : List Entry)
    (htruthy : ∀ e ∈ h, e.isTruthy = true) :
    ∀ (order seen : List String),
      pickLoop (h.map (fun e => (pyStr e.id, e))) order seen =
        pickAux (fun i => h.find? (fun e => pyStr e.id = i)) order seen
  | [], _ => rfl
  | a :: rest, seen => by
    rw [pickLoop, pickAux, dictGet_map_entries]
    cases hfind : h.find? (fun e => pyStr e.id = a) with
    | none => exact pickLoop_eq_pickAux h htruthy rest seen
    | some entry =>
      have htr : entry.isTruthy = true :=
        htruthy entry (List.mem_of_find?_eq_some hfind)
      have ih1 := pickLoop_eq_pickAux h htruthy rest (a :: seen)
      have ih2 := pickLoop_eq_pickAux h htruthy rest seen
      cases hc : seen.contains a <;> simp [htr, hc, ih1, ih2]

lemma filterMap_filter_and_ne {β : Type} (f : String → Option β) (a : String)
    (hf : f a = none) (p : String → Bool) :
    ∀ l : List String,
      ((l.filter (fun x => p x && !(x == a))).filterMap f) =
        ((l.filter p).filterMap f)
  | [] => rfl
  | x :: rest => by
    have ih := filterMap_filter_and_ne f a hf p rest
    by_cases hx : x = a
    · subst hx
      cases hp : p x <;> simp [List.filterMap_cons, hp, hf, ih]
    · have hxa : (x == a) = false := by simp [hx]
      cases hp : p x <;> simp [List.filterMap_cons, hp, hxa, ih]

/-- The picked part of `pickAux`: first occurrences of the order not
yet seen, looked up through `f`, unknown ids dropped. -/
lemma pickAux_fst {β : Type} (f : String → Option β) :
    ∀ (order seen : List String),
      (pickAux f order seen).1 =
        ((dedupFirst order).filter (fun i => !(seen.contains i))).filterMap f
  | [], _ => rfl
  | a :: rest, seen => by
    rw [pickAux, dedupFirst]
    cases hfind : f a with
    | some b =>
      dsimp only
      by_cases hseen : seen.contains a = true
      · rw [if_pos hseen, pickAux_fst f rest seen, List.filter_cons]
        simp only [hseen, Bool.not_true]
        rw [if_neg Bool.false_ne_true, List.filter_filter]
        refine congrArg _ (List.filter_congr (fun x _ => ?_)).symm
        by_cases hx : x = a
        · subst hx; simp [(contains_iff_mem _ _).mp hseen]
        · simp [hx]
      · rw [if_neg hseen, List.filter_cons]
        have hsf : seen.contains a = false := Bool.eq_false_iff.mpr hseen
        simp only [hsf, Bool.not_false]
        rw [if_pos trivial]
        simp only [List.filterMap_cons, hfind]
        refine congrArg (b :: ·) ?_
        rw [pickAux_fst f rest (a :: seen), List.filter_filter]
        refine congrArg _ (List.filter_congr (fun x _ => ?_))
        by_cases hx : x = a <;>
          by_cases hxs : x ∈ seen <;>
            simp [List.contains_cons, hx, hxs, beq_eq_decide]
    | none =>
      dsimp only
      by_cases hseen : seen.contains a = true
      · rw [pickAux_fst f rest seen, List.filter_cons]
        simp only [hseen, Bool.not_true]
        rw [if_neg Bool.false_ne_true, List.filter_filter]
        refine congrArg _ (List.filter_congr (fun x _ => ?_)).symm
        by_cases hx : x = a
        · subst hx; simp [(contains_iff_mem _ _).mp hseen]
        · simp [hx]
      · rw [pickAux_fst f rest seen, List.filter_cons]
        have hsf : seen.contains a = false := Bool.eq_false_iff.mpr hseen
        simp only [hsf, Bool.not_false]
        rw [if_pos trivial]
        simp only [List.filterMap_cons, hfind]
        rw [List.filter_filter]
        exact (filterMap_filter_and_ne f a hfind _ _).symm

/-- Membership in the seen set produced by `pickAux`. -/
lemma pickAux_snd_mem {β : Type} (f : String → Option β) :
    ∀ (order seen : List String) (x : String),
      (x ∈ (pickAux f order seen).2 ↔
        x ∈ seen ∨ (x ∈ order ∧ (f x).isSome = true))
  | [], seen, x => by simp [pickAux]
  | a :: rest, seen, x => by
    rw [pickAux]
    cases hfind : f a with
    | some b =>
      dsimp only
      by_cases hseen : seen.contains a = true
      · have hm : a ∈ seen := (contains_iff_mem _ _).mp hseen
        rw [if_pos hseen, pickAux_snd_mem f rest seen x]
        by_cases hx : x = a
        · subst hx; simp [hm, hfind]
        · simp [hx]
      · rw [if_neg hseen]
        have := pickAux_snd_mem f rest (a :: seen) x
        simp only [List.mem_cons] at this ⊢
        rw [this]
        by_cases hx : x = a
        · subst hx; simp [hfind]
        · simp only [hx, List.mem_cons, false_or]
    | none =>
      dsimp only
      rw [pickAux_snd_mem f rest seen x]
      by_cases hx : x = a
      · subst hx; simp [hfind]
      · simp [hx]

/-- With distinct ids, the append loop is a plain filter against the
seen set. -/
lemma appendLoop_eq_filter :
    ∀ (l : List Entry) (seen : List String),
      ((l.map (fun e => pyStr e.id)).Nodup) →
      appendLoop l seen = l.filter (fun e => !(seen.contains (pyStr e.id)))
  | [], _ => by simp [appendLoop]
  | e :: rest, seen => by
    intro hnd
    rw [List.map_cons, List.nodup_cons] at hnd
    rw [appendLoop, List.filter_cons]
    by_cases hc : seen.contains (pyStr e.id) = true
    · rw [if_pos hc, appendLoop_eq_filter rest seen hnd.2]
      simp only [hc, Bool.not_true]
      rw [if_neg Bool.false_ne_true]
    · have hcf : seen.contains (pyStr e.id) = false := Bool.eq_false_iff.mpr hc
      rw [if_neg hc, appendLoop_eq_filter rest (pyStr e.id :: seen) hnd.2]
      simp only [hcf, Bool.not_false]
      rw [if_pos trivial]
      refine congrArg (e :: ·) (List.filter_congr (fun x hx => ?_))
      have hne : pyStr x.id ≠ pyStr e.id := by
        intro hcontra
        exact hnd.1 (hcontra ▸ List.mem_map_of_mem _ hx)
      by_cases hxs : pyStr x.id ∈ seen <;>
        simp [List.contains_cons, hne, hxs, beq_eq_decide]

end Helpers

/-! ## Claim theorems -/

/-- C3: no two entries in a loaded history or in the history produced
by `record_entry` share a fingerprint; loading keeps exactly the first
occurrence per fingerprint and preserves the relative order of the
survivors. -/
theorem history_fingerprints_unique :
    (∀ s : Store, ((load_history s).map entry_fingerprint).Nodup) ∧
    (∀ es : List Entry, load_history (some (some es)) = firstOccurrences es) ∧
    (∀ es : List Entry, List.Sublist (firstOccurrences es) es) ∧
    (∀ (e : Entry) (s : Store),
      ((storedEntries (record_entry e s).2).map entry_fingerprint).Nodup) := by
  refine ⟨load_history_fp_nodup, fun es => dedupLoop_eq_firstOccurrences es,
    firstOccurrences_sublist, fun e s => ?_⟩
  rw [record_entry_eq]
  simp only [storedEntries]
  have h1 := insertOrMerge_fp_nodup e _ (load_history_fp_nodup s)
  have h2 : List.Sublist
      (((insertOrMerge (entry_fingerprint e) e (load_history s)).take 100).map
        entry_fingerprint)
      ((insertOrMerge (entry_fingerprint e) e (load_history s)).map
        entry_fingerprint) := by
    rw [List.map_take]
    exact List.take_sublist _ _
  exact h2.nodup h1

/-- C4: `load_history` returns an empty history, rather than an error,
when the persisted file is absent and when it is present but not
parseable ("structurally unreadable", per the spec's fail-open policy
of treating a store that cannot be parsed as empty). -/
theorem load_fail_open : load_history none = [] ∧ load_history (some none) = [] :=
  ⟨rfl, rfl⟩

/-- C6: recording the identical entry twice starting from an empty
history leaves a history of length exactly one — the second call
merges into the first entry instead of appending. -/
theorem record_idempotent_length (e : Entry) :
    (storedEntries (record_entry e (record_entry e (some (some []))).2).2).length
      = 1 := by
  have h1 : record_entry e (some (some [])) = (e, some (some [e])) := rfl
  rw [h1, record_entry_eq]
  have h2 : load_history (some (some [e])) = [e] := rfl
  rw [h2, insertOrMerge, if_pos rfl]
  rfl

/-- C8: the executor returns the sentinel `(599, {}, message)` exactly
on transport-level failures (`URLError`), while an HTTP-level error
status (`HTTPError`) is treated exactly like a success: its real
status code, headers and body are returned. -/
theorem executor_sentinel (method url : String)
    (reqHeaders : List (String × String)) (body : Option String) :
    (∀ reason, send_external_request method url reqHeaders body
      (.urlError reason) = (599, [], "Request failed: " ++ reason)) ∧
    (∀ code respHeaders respBody, send_external_request method url reqHeaders
      body (.httpError code respHeaders respBody) =
      (code, respHeaders.getD [], respBody)) ∧
    (∀ status respHeaders respBody, send_external_request method url reqHeaders
      body (.success status respHeaders respBody) =
      (status, respHeaders, respBody)) :=
  ⟨fun _ => rfl, fun _ _ _ => rfl, fun _ _ _ => rfl⟩

/-- C1 (amended): after `record_entry` the history holds at most 100
entries, and the entries dropped to restore the cap are the newest
ones by stored order — the merged/appended list is truncated to its
first 100 entries, so when the history is already at the cap and no
fingerprint matches, the history is left unchanged and the newly
appended entry is itself the one dropped. -/
theorem record_cap_drops_newest (e : Entry) (s : Store) :
    (storedEntries (record_entry e s).2).length ≤ 100 ∧
    storedEntries (record_entry e s).2 =
      (insertOrMerge (entry_fingerprint e) e (load_history s)).take 100 ∧
    ((load_history s).length = 100 →
      (∀ p ∈ load_history s, entry_fingerprint p ≠ entry_fingerprint e) →
      storedEntries (record_entry e s).2 = load_history s) := by
  refine ⟨?_, ?_, ?_⟩
  · rw [record_entry_eq]
    exact List.length_take_le _ _
  · rw [record_entry_eq]
    rfl
  · intro hlen hno
    rw [record_entry_eq]
    simp only [storedEntries]
    rw [insertOrMerge_append _ _ _ hno, List.take_left' hlen]

set_option maxRecDepth 20000 in
/-- C1 counterexample: on a store already holding 100 entries with
pairwise distinct fingerprints, recording a fresh entry (whose
fingerprint matches none of them) leaves the stored history unchanged:
the newly appended entry is the one dropped, not the oldest ones, so
the claim "the newly appended entry is always retained" fails. -/
theorem record_cap_counterexample :
    storedEntries (record_entry freshEntry (some (some hundredEntries))).2 =
      hundredEntries ∧
    freshEntry ∉ hundredEntries ∧
    (∀ p ∈ hundredEntries,
      entry_fingerprint p ≠ entry_fingerprint freshEntry) := by
  decide

set_option maxRecDepth 20000 in
/-- C1 witness: the amended theorem applied to the concrete full
store. -/
theorem record_cap_drops_newest_witness :
    storedEntries (record_entry freshEntry (some (some hundredEntries))).2 =
      load_history (some (some hundredEntries)) :=
  (record_cap_drops_newest freshEntry (some (some hundredEntries))).2.2
    (by decide) (by decide)

/-- C2: when the loaded history contains `P` (split as
`pre ++ P :: post`, within the cap) and `N` has `P`'s fingerprint,
`record_entry N` replaces `P` at its original position — same
position, other entries untouched — with a merged entry `M` whose
fields take `N`'s values wherever `N` supplies them, except that `id`
is kept from `P` when `P` has a (non-empty) id, and `name` is kept
from `P` when `N` supplies no name (absent or empty). -/
theorem record_merge_in_place (s : Store) (N P : Entry)
    (pre post : List Entry)
    (hload : load_history s = pre ++ P :: post)
    (hfp : entry_fingerprint N = entry_fingerprint P)
    (hlen : (pre ++ P :: post).length ≤ 100) :
    ∃ M : Entry,
      record_entry N s = (N, save_history (pre ++ M :: post) s) ∧
      (∀ v, N.timestamp = some v → M.timestamp = some v) ∧
      (∀ v, N.method = some v → M.method = some v) ∧
      (∀ v, N.url = some v → M.url = some v) ∧
      (∀ v, N.headers = some v → M.headers = some v) ∧
      (∀ v, N.body = some v → M.body = some v) ∧
      (∀ v, N.response_status = some v → M.response_status = some v) ∧
      (pyTruthyStr P.id = true → M.id = P.id) ∧
      (pyTruthyStr P.id = false → M.id = N.id) ∧
      (N.name = none → M.name = P.name) ∧
      (pyTruthyStr N.name = false → pyTruthyStr P.name = true →
        M.name = P.name) := by
  refine ⟨mergeEntries P N,
    record_entry_merge s N P pre post hload hfp hlen,
    ?_, ?_, ?_, ?_, ?_, ?_, ?_, ?_, ?_, ?_⟩
  · intro v hv
    rw [mergeEntries_timestamp, hv]
    rfl
  · intro v hv
    rw [mergeEntries_method, hv]
    rfl
  · intro v hv
    rw [mergeEntries_url, hv]
    rfl
  · intro v hv
    rw [mergeEntries_headers, hv]
    rfl
  · intro v hv
    rw [mergeEntries_body, hv]
    rfl
  · intro v hv
    rw [mergeEntries_response_status, hv]
    rfl
  · intro h
    rw [mergeEntries_id, pyOrStr, if_pos h]
  · intro h
    rw [mergeEntries_id, pyOrStr, if_neg (by simp [h])]
  · intro h
    rw [mergeEntries_name, h]
    cases ht : pyTruthyStr P.name <;> simp [ht]
  · intro h1 h2
    rw [mergeEntries_name]
    cases hn : N.name with
    | none => simp [h2]
    | some v =>
      rw [hn] at h1
      have hv : v = "" := by simpa [pyTruthyStr] using h1
      subst hv
      simp [h2, show pyTruthyStr (some "") = false from rfl]

/-- C2 witness: the spec's merge example — stored `{id:"X",
name:"keep"}` merged with a fingerprint-equal `{id:"Y", name:""}` —
through the claim theorem. -/
theorem record_merge_in_place_witness :
    ∃ M : Entry,
      record_entry mergeNewExample (some (some [mergePrevExample])) =
        (mergeNewExample,
         save_history ([] ++ M :: []) (some (some [mergePrevExample]))) ∧
      (∀ v, mergeNewExample.timestamp = some v → M.timestamp = some v) ∧
      (∀ v, mergeNewExample.method = some v → M.method = some v) ∧
      (∀ v, mergeNewExample.url = some v → M.url = some v) ∧
      (∀ v, mergeNewExample.headers = some v → M.headers = some v) ∧
      (∀ v, mergeNewExample.body = some v → M.body = some v) ∧
      (∀ v, mergeNewExample.response_status = some v →
        M.response_status = some v) ∧
      (pyTruthyStr mergePrevExample.id = true → M.id = mergePrevExample.id) ∧
      (pyTruthyStr mergePrevExample.id = false → M.id = mergeNewExample.id) ∧
      (mergeNewExample.name = none → M.name = mergePrevExample.name) ∧
      (pyTruthyStr mergeNewExample.name = false →
        pyTruthyStr mergePrevExample.name = true →
        M.name = mergePrevExample.name) :=
  record_merge_in_place (some (some [mergePrevExample])) mergeNewExample
    mergePrevExample [] [] (by decide) (by decide) (by decide)

/-- C10 (amended): when `record_entry` merges `N` into the stored
entry `P`, every field present on `P` and absent from `N` is retained
unchanged in the merged entry, except `id`: a non-empty stored id is
retained, but a present-but-empty stored id is replaced by `N`'s id
(absent when `N` supplies none). -/
theorem record_merge_overlay (s : Store) (N P : Entry)
    (pre post : List Entry)
    (hload : load_history s = pre ++ P :: post)
    (hfp : entry_fingerprint N = entry_fingerprint P)
    (hlen : (pre ++ P :: post).length ≤ 100) :
    ∃ M : Entry,
      record_entry N s = (N, save_history (pre ++ M :: post) s) ∧
      (N.timestamp = none → M.timestamp = P.timestamp) ∧
      (N.method = none → M.method = P.method) ∧
      (N.url = none → M.url = P.url) ∧
      (N.headers = none → M.headers = P.headers) ∧
      (N.body = none → M.body = P.body) ∧
      (N.response_status = none → M.response_status = P.response_status) ∧
      (N.name = none → M.name = P.name) ∧
      (N.id = none → pyTruthyStr P.id = true → M.id = P.id) ∧
      (N.id = none → pyTruthyStr P.id = false → M.id = none) := by
  refine ⟨mergeEntries P N,
    record_entry_merge s N P pre post hload hfp hlen,
    ?_, ?_, ?_, ?_, ?_, ?_, ?_, ?_, ?_⟩
  · intro hv
    rw [mergeEntries_timestamp, hv]
    rfl
  · intro hv
    rw [mergeEntries_method, hv]
    rfl
  · intro hv
    rw [mergeEntries_url, hv]
    rfl
  · intro hv
    rw [mergeEntries_headers, hv]
    rfl
  · intro hv
    rw [mergeEntries_body, hv]
    rfl
  · intro hv
    rw [mergeEntries_response_status, hv]
    rfl
  · intro hv
    rw [mergeEntries_name, hv]
    cases ht : pyTruthyStr P.name <;> simp [ht]
  · intro _ h
    rw [mergeEntries_id, pyOrStr, if_pos h]
  · intro hv h
    rw [mergeEntries_id, pyOrStr, if_neg (by simp [h]), hv]

/-- C10 counterexample: a stored entry whose `id` is present but empty
is not retained by the merge — recording a fingerprint-equal entry
that supplies no `id` leaves the stored entry with no id at all, so
"every field present on the previous entry but absent from the new is
retained unchanged" fails for `id = ""`. -/
theorem record_merge_overlay_counterexample :
    emptyIdPrev.id = some "" ∧ noIdNew.id = none ∧
    entry_fingerprint noIdNew = entry_fingerprint emptyIdPrev ∧
    (storedEntries
      (record_entry noIdNew (some (some [emptyIdPrev]))).2).map Entry.id =
      [none] := by
  decide

/-- C10 witness: the amended overlay theorem applied to a fully
populated stored entry and a sparse fingerprint-equal new entry. -/
theorem record_merge_overlay_witness :
    ∃ M : Entry,
      record_entry sparseNew (some (some [fullPrev])) =
        (sparseNew, save_history ([] ++ M :: []) (some (some [fullPrev]))) ∧
      (sparseNew.timestamp = none → M.timestamp = fullPrev.timestamp) ∧
      (sparseNew.method = none → M.method = fullPrev.method) ∧
      (sparseNew.url = none → M.url = fullPrev.url) ∧
      (sparseNew.headers = none → M.headers = fullPrev.headers) ∧
      (sparseNew.body = none → M.body = fullPrev.body) ∧
      (sparseNew.response_status = none →
        M.response_status = fullPrev.response_status) ∧
      (sparseNew.name = none → M.name = fullPrev.name) ∧
      (sparseNew.id = none → pyTruthyStr fullPrev.id = true →
        M.id = fullPrev.id) ∧
      (sparseNew.id = none → pyTruthyStr fullPrev.id = false →
        M.id = none) :=
  record_merge_overlay (some (some [fullPrev])) sparseNew fullPrev [] []
    (by decide) (by decide) (by decide)

/-- C5: the fingerprint is order-independent over headers — two
entries agreeing on method, url and body whose header mappings hold
the same trimmed key/value pairs (distinct trimmed keys) in any order
have equal fingerprints — and an absent body fingerprints identically
to an empty-string body. -/
theorem fingerprint_normalization (e1 e2 : Entry)
    (h1 h2 : List (String × String))
    (he1 : e1.headers = some h1) (he2 : e2.headers = some h2)
    (hm : e1.method = e2.method) (hu : e1.url = e2.url)
    (hb : e1.body = e2.body)
    (hperm : (h1.map (fun kv => (pyStrip kv.1, pyStrip kv.2))).Perm
      (h2.map (fun kv => (pyStrip kv.1, pyStrip kv.2))))
    (hnd : ((h1.map (fun kv => (pyStrip kv.1, pyStrip kv.2))).map
      Prod.fst).Nodup) :
    entry_fingerprint e1 = entry_fingerprint e2 ∧
    ∀ e : Entry, entry_fingerprint { e with body := none } =
      entry_fingerprint { e with body := some "" } := by
  constructor
  · have hnd2 : ((h2.map (fun kv => (pyStrip kv.1, pyStrip kv.2))).map
        Prod.fst).Nodup := (hperm.map Prod.fst).nodup_iff.mp hnd
    have hsort := insertionSort_eq_of_perm hperm
    unfold entry_fingerprint
    rw [he1, he2, hm, hu, hb]
    dsimp only [Option.getD_some]
    rw [dictOfList_eq_self _ hnd, dictOfList_eq_self _ hnd2, hsort]
  · intro e
    rfl

/-- C5 witness: the spec's example `{a:1, b:2}` versus `{b:2, a:1}`
through the claim theorem. -/
theorem fingerprint_normalization_witness :
    entry_fingerprint headerEntryL = entry_fingerprint headerEntryR :=
  (fingerprint_normalization headerEntryL headerEntryR
    [("a", "1"), ("b", "2")] [("b", "2"), ("a", "1")]
    rfl rfl rfl rfl rfl (by decide) (by decide)).1

/-- C9: `remove_entry` returns whether a removal occurred; when no
entry's stringified id matches it returns `false` and leaves the
store state untouched (nothing is rewritten), and when a match exists
it persists the history with the matching entries deleted. -/
theorem remove_not_found_no_write (entry_id : String) (s : Store) :
    ((remove_entry entry_id s).1 = true ↔
      ∃ e ∈ load_history s, pyStr e.id = entry_id) ∧
    ((∀ e ∈ load_history s, pyStr e.id ≠ entry_id) →
      remove_entry entry_id s = (false, s)) ∧
    ((∃ e ∈ load_history s, pyStr e.id = entry_id) →
      remove_entry entry_id s =
        (true, save_history
          ((load_history s).filter (fun e => !(pyStr e.id == entry_id))) s)) := by
  have hfl := @List.filter_length_eq_length Entry
    (fun item => !(pyStr item.id == entry_id)) (load_history s)
  by_cases hc : ((load_history s).filter
      (fun item => !(pyStr item.id == entry_id))).length =
      (load_history s).length
  · have hall : ∀ e ∈ load_history s, pyStr e.id ≠ entry_id := by
      intro e he heq
      have := hfl.mp hc e he
      simp [heq] at this
    have hres : remove_entry entry_id s = (false, s) := by
      unfold remove_entry
      dsimp only
      rw [if_pos hc]
    refine ⟨?_, fun _ => hres, ?_⟩
    · rw [hres]
      constructor
      · intro hfalse
        exact absurd hfalse (by simp)
      · rintro ⟨e, he, heq⟩
        exact absurd heq (hall e he)
    · rintro ⟨e, he, heq⟩
      exact absurd heq (hall e he)
  · have hex : ∃ e ∈ load_history s, pyStr e.id = entry_id := by
      by_contra hno
      push_neg at hno
      exact hc (hfl.mpr (fun a ha => by simp [hno a ha]))
    have hres : remove_entry entry_id s =
        (true, save_history
          ((load_history s).filter (fun e => !(pyStr e.id == entry_id))) s) := by
      unfold remove_entry
      dsimp only
      rw [if_neg hc]
    refine ⟨?_, ?_, fun _ => hres⟩
    · rw [hres]
      exact ⟨fun _ => hex, fun _ => rfl⟩
    · intro hall
      obtain ⟨e, he, heq⟩ := hex
      exact (hall e he heq).elim

/-- C9 witness: deleting an unknown id from a one-entry store returns
`false` and does not rewrite the persisted state. -/
theorem remove_not_found_no_write_witness :
    remove_entry "z" (some (some [entryA])) = (false, some (some [entryA])) :=
  (remove_not_found_no_write "z" (some (some [entryA]))).2.1 (by decide)

/-- C7: with distinct (stringified) entry ids and non-empty entries,
`reorder_entries` returns exactly the spec's reorder — the entries
whose ids appear in the id sequence, matched once each in the
sequence's order with unknown ids silently ignored, followed by the
unmentioned entries in their original relative order — and always
persists the result, even for an empty id sequence. -/
theorem reorder_matches_spec (order : List String) (s : Store)
    (hnodup : ((load_history s).map (fun e => pyStr e.id)).Nodup)
    (htruthy : ∀ e ∈ load_history s, e.isTruthy = true) :
    reorder_entries order s =
      (specReorder order (load_history s),
       save_history (specReorder order (load_history s)) s) := by
  have hkeys : (((load_history s).map
      (fun e => (pyStr e.id, e))).map Prod.fst).Nodup := by
    rw [List.map_map]
    exact hnodup
  have hmain : (pickAux (fun i => (load_history s).find?
        (fun e => pyStr e.id = i)) order []).1
      ++ appendLoop (load_history s)
        (pickAux (fun i => (load_history s).find?
          (fun e => pyStr e.id = i)) order []).2
      = specReorder order (load_history s) := by
    rw [pickAux_fst, appendLoop_eq_filter _ _ hnodup]
    unfold specReorder
    congr 1
    · refine congrArg _ (List.filter_eq_self.mpr (fun a _ => rfl))
    · refine List.filter_congr (fun e he => ?_)
      have hiff := pickAux_snd_mem (fun i => (load_history s).find?
        (fun x => pyStr x.id = i)) order [] (pyStr e.id)
      have hsome : ((load_history s).find?
          (fun x => pyStr x.id = pyStr e.id)).isSome = true :=
        List.find?_isSome.mpr ⟨e, he, by simp⟩
      by_cases ho : pyStr e.id ∈ order
      · have hmem : pyStr e.id ∈ (pickAux (fun i => (load_history s).find?
            (fun x => pyStr x.id = i)) order []).2 :=
          hiff.mpr (Or.inr ⟨ho, hsome⟩)
        rw [(contains_iff_mem _ _).mpr hmem, (contains_iff_mem _ _).mpr ho]
      · have hmem : pyStr e.id ∉ (pickAux (fun i => (load_history s).find?
            (fun x => pyStr x.id = i)) order []).2 := by
          intro hmem
          rcases hiff.mp hmem with h | ⟨h, _⟩
          · exact List.not_mem_nil _ h
          · exact ho h
        rw [contains_eq_false hmem, contains_eq_false ho]
  unfold reorder_entries
  dsimp only
  rw [dictOfList_eq_self _ hkeys, pickLoop_eq_pickAux _ htruthy, hmain]

/-- C7 witness: the spec's example — reordering `[a, b, c]` by
`["b", "a"]` — through the claim theorem. -/
theorem reorder_matches_spec_witness :
    reorder_entries ["b", "a"] reorderStore =
      (specReorder ["b", "a"] (load_history reorderStore),
       save_history (specReorder ["b", "a"] (load_history reorderStore))
         reorderStore) :=
  reorder_matches_spec ["b", "a"] reorderStore (by decide) (by decide)
